import Mathlib

/-!
Shallow embedding of the `speliuk` Ukrainian spelling-correction pipeline
(`src/speliuk/correct.py`) and of the evaluation script
(`src/scripts/evaluate.py`).

External collaborators (the kenlm language model, the SymSpell dictionary,
the spaCy tokenizer/NER and the error-detection pipe) are modelled as
abstract inputs:
  * `score : String → Int` stands for `kenlm.Model.score` (the behaviour of
    the code depends only on the linear order of the returned floats, so an
    integer-valued stand-in is faithful);
  * `lookup : String → Nat → Bool → List String` stands for
    `SymSpell.lookup token Verbosity.CLOSEST max_edit_distance transfer_casing`,
    returning the suggestion terms in order;
  * a `Doc` is the result of running the spaCy pipeline: the original text
    plus the token list, each token carrying its text and its NER entity
    type (`ent_type_`);
  * the composition of the error-detection pipe with `Doc.char_span`
    (method `_set_error_spans`) is an input `List (Option SpanData)`:
    `none` models `char_span` returning `None` for a span that does not
    align with token boundaries.

Python strings are sequences of Unicode code points, so they are embedded
as Lean `String` and sliced through the `List Char` field `String.data`.
-/

/-- Helper for `pyReplace`: scans the character list left to right; whenever
the pattern is a prefix of the remaining input, emits the replacement and
skips the pattern, exactly like Python `str.replace` (all non-overlapping
occurrences, left to right). The fuel argument makes the recursion
structural; `fuel = length of the list` is always enough because every step
consumes at least one character. -/
def replaceAux (pat rep : List Char) : Nat → List Char → List Char
  | _, [] => []
  | 0, l => l
  | fuel+1, c :: cs =>
    if pat ≠ [] ∧ pat.isPrefixOf (c :: cs) then
      rep ++ replaceAux pat rep fuel (cs.drop (pat.length - 1))
    else
      c :: replaceAux pat rep fuel cs

/-- Model of Python `s.replace(pat, rep)` (replaces every occurrence). -/
def pyReplace (s pat rep : String) : String :=
  ⟨replaceAux pat.data rep.data s.data.length s.data⟩

/-- Model of Python `str.lower` (per-character lowercasing). -/
def lowerStr (s : String) : String :=
  ⟨s.data.map Char.toLower⟩

/-- Model of Python `sep.join(items)`. -/
def joinSep (sep : String) : List String → String
  | [] => ""
  | [a] => a
  | a :: rest => a ++ sep ++ joinSep sep rest

/-- Slice `s[a:b]` of a Python string (code-point indices, clipped). -/
def strSlice (s : String) (a b : Nat) : String :=
  ⟨(s.data.take b).drop a⟩

/-- Model of Python `s.startswith(p)`. -/
def startsWithStr (s p : String) : Bool :=
  p.data.isPrefixOf s.data

/-- Helper for `dedupFirst`: drops every element already seen. -/
def dedupFirstAux (seen : List String) : List String → List String
  | [] => []
  | a :: l =>
    if a ∈ seen then dedupFirstAux seen l
    else a :: dedupFirstAux (a :: seen) l

/-- First-occurrence deduplication: the key sequence of a Python `dict`
built by inserting the elements of the list in order (later duplicates only
overwrite the value, the key keeps its first position). -/
def dedupFirst (l : List String) : List String :=
  dedupFirstAux [] l

/-- Insert into a descending-sorted list, placing the new element before
every element of equal key; together with `sortDesc` this realises the
unique stable descending sort, which is what Python
`sorted(items, key=..., reverse=True)` computes. -/
def insertDesc {α : Type} (key : α → Int) (a : α) : List α → List α
  | [] => [a]
  | b :: l => if key b ≤ key a then a :: b :: l else b :: insertDesc key a l

/-- Stable descending sort by an integer key: the model of Python
`sorted(items, key=lambda item: item[1], reverse=True)`. -/
def sortDesc {α : Type} (key : α → Int) : List α → List α
  | [] => []
  | a :: l => insertDesc key a (sortDesc key l)

/-- A spaCy token: its text and its NER entity type (`ent_type_`, the empty
string when the token is not part of a named entity). -/
structure Token where
  text : String
  entType : String
deriving DecidableEq

/-- A spaCy `Doc` after tokenization and NER: the original text and the
token list. -/
structure Doc where
  text : String
  tokens : List Token
deriving DecidableEq

/-- A spaCy `Span` over a `Doc`, as produced by `Doc.char_span`: token
bounds (`start` inclusive, `stop` exclusive — `span.end` in spaCy) and the
character bounds `start_char`/`end_char`. -/
structure SpanData where
  start : Nat
  stop : Nat
  startChar : Nat
  endChar : Nat
deriving DecidableEq

/-- Text of a span: `doc.text[start_char:end_char]`, which is what
`Span.text` evaluates to for a span aligned to token boundaries. -/
def SpanData.text (doc : Doc) (s : SpanData) : String :=
  strSlice doc.text s.startChar s.endChar

/-- One recorded edit of the `ua_gec` `AnnotatedText` structure: span
bounds into the source text, the source text of the span, and the chosen
suggestion (fields `start`, `end`, `source_text`, `top_suggestion`). -/
structure Annot where
  start : Nat
  stop : Nat
  sourceText : String
  topSuggestion : String
deriving DecidableEq

/-- Model of `ua_gec.AnnotatedText`: the source text plus the recorded
edits, in the order the `annotate` calls were made. -/
structure AnnotatedText where
  text : String
  annots : List Annot
deriving DecidableEq

/-- Model of `AnnotatedText.annotate(start, end, correct_value)`: records
an edit whose `source_text` is the annotated slice of the source text. -/
def AnnotatedText.annotate (a : AnnotatedText) (start stop : Nat)
    (correctValue : String) : AnnotatedText :=
  ⟨a.text, a.annots ++ [⟨start, stop, strSlice a.text start stop, correctValue⟩]⟩

/-- Replace the slice `[a, b)` of a string by `repl`. -/
def splice (text : String) (a b : Nat) (repl : String) : String :=
  ⟨text.data.take a ++ repl.data ++ text.data.drop b⟩

/-- Replace each recorded edit's span of the source text by its chosen
suggestion. Edits are applied at decreasing start positions so that
character indices of the untouched earlier spans stay valid; for the
non-overlapping spans produced by the pipeline this is exactly "the input
text with every edit's span replaced by its correction". -/
def applyAnnots (text : String) (annots : List Annot) : String :=
  (sortDesc (fun a => (a.start : Int)) annots).foldl
    (fun t a => splice t a.start a.stop a.topSuggestion) text

/-- Model of `AnnotatedText.get_corrected_text`. -/
def AnnotatedText.getCorrectedText (a : AnnotatedText) : String :=
  applyAnnots a.text a.annots

/-- The dataclass `Correction` returned by `Speliuk.correct`. -/
structure Correction where
  corrected_text : String
  annotations : List Annot
deriving DecidableEq

/-- `Speliuk.MASK_TOKEN`. -/
def MASK_TOKEN : String := "<mask>"

/-- Embedding of `Speliuk._symspell_candidates`: the terms of
`sym_spell.lookup(token, Verbosity.CLOSEST, max_edit_distance=2,
transfer_casing=True)`, truncated to the first 5. -/
def symspell_candidates (lookup : String → Nat → Bool → List String)
    (token : String) : List String :=
  (lookup token 2 true).take 5

/-- The text whose language-model score `_kenlm_rerank` computes for one
candidate: `masked_text.replace(MASK_TOKEN, candidate).lower()`. -/
def scored_text (maskedText candidate : String) : String :=
  lowerStr (pyReplace maskedText MASK_TOKEN candidate)

/-- Embedding of `Speliuk._kenlm_rerank`. The Python function fills a dict
`scores[candidate] = kenlm.score(text.lower())` (keys in first-occurrence
order, the value of a duplicate key unchanged because it depends only on
the key) and rebuilds it via `sorted(scores.items(), key=item: item[1],
reverse=True)`, a stable descending sort. The embedding returns the
resulting association list. -/
def kenlm_rerank (score : String → Int) (maskedText : String)
    (candidates : List String) : List (String × Int) :=
  sortDesc (fun p => p.2)
    ((dedupFirst candidates).map (fun c => (c, score (scored_text maskedText c))))

/-- Value of key `k` in the association list: `l[k]` on the Python dict.
The default branch is unreachable in the uses below: `top_candidate` only
looks up keys that are provably present. -/
def assocScore (l : List (String × Int)) (k : String) : Int :=
  ((l.find? (fun p => p.1 == k)).getD (k, 0)).2

/-- The candidate list scored by `top_candidate`: the (at most 5) SymSpell
suggestions, with the original token appended when absent
(`if token not in candidates: candidates.append(token)`). -/
def scoredCandidates (lookup : String → Nat → Bool → List String)
    (token : String) : List String :=
  let candidates := symspell_candidates lookup token
  if token ∈ candidates then candidates else candidates ++ [token]

/-- Embedding of `Speliuk.top_candidate`. `list(kenlm_candidates.keys())[0]`
is the head of the reranked list (nonempty because the token itself is
always a candidate); the final comparison prefers the original token on a
score tie. -/
def top_candidate (score : String → Int)
    (lookup : String → Nat → Bool → List String)
    (maskedText token : String) : String :=
  let ranked := kenlm_rerank score maskedText (scoredCandidates lookup token)
  let top := (ranked.headD (token, 0)).1
  if assocScore ranked token = assocScore ranked top then token else top

/-- Embedding of `Speliuk.get_masked_text`. `doc[a:b]` is Python slicing
of the token list (clipped at the ends); `left_start` is
`span.start - window if span.start - window >= 0 else 0`. The `window`
argument defaults to 5 at the call site in `correct`. -/
def get_masked_text (doc : Doc) (s : SpanData) (window : Nat) : String :=
  let leftStart := if window ≤ s.start then s.start - window else 0
  let leftTokens := (doc.tokens.take s.start).drop leftStart
  let leftText := joinSep " " (leftTokens.map Token.text)
  let rightTokens := (doc.tokens.take (s.stop + window)).drop s.stop
  let rightText := joinSep " " (rightTokens.map Token.text)
  leftText ++ " " ++ MASK_TOKEN ++ " " ++ rightText

/-- Does a Python string start with a digit? (`text and text[0].isdigit()`). -/
def starts_with_digit (t : String) : Bool :=
  match t.data with
  | [] => false
  | c :: _ => c.isDigit

/-- Embedding of `Speliuk._valid_edit`. Returns `none` where the Python
code raises: `doc[span.start:span.end][0]` is an `IndexError` when the
token slice is empty (the digit test fires first and returns `False`
without touching the slice). -/
def valid_edit (doc : Doc) (s : SpanData) : Option Bool :=
  if starts_with_digit (s.text doc) then some false
  else
    match (doc.tokens.take s.stop).drop s.start with
    | [] => none
    | tok :: _ =>
      some (!(startsWithStr tok.entType "PER" || tok.entType == "GPE"
              || tok.entType == "ORG"))

/-- The loop body of `Speliuk.correct` over the stored error spans, with
the failure cases made explicit: iterating over a `None` span dereferences
`span.text` inside `_valid_edit` (an `AttributeError`), and `_valid_edit`
itself raises on a zero-token span. -/
def correctLoop (score : String → Int)
    (lookup : String → Nat → Bool → List String) (doc : Doc) :
    List (Option SpanData) → AnnotatedText → Option AnnotatedText
  | [], acc => some acc
  | none :: _, _ => none
  | some s :: rest, acc =>
    match valid_edit doc s with
    | none => none
    | some false => correctLoop score lookup doc rest acc
    | some true =>
      let maskedText := get_masked_text doc s 5
      let correction := top_candidate score lookup maskedText (s.text doc)
      correctLoop score lookup doc rest
        (acc.annotate s.startChar s.endChar correction)

/-- Embedding of `Speliuk.correct`. `doc` is the result of `self.nlp(text)`
and `detected` the spans stored by `_set_error_spans` (the error-detection
entities pushed through `doc.char_span`). -/
def speliuk_correct (score : String → Int)
    (lookup : String → Nat → Bool → List String) (doc : Doc)
    (detected : List (Option SpanData)) : Option Correction :=
  (correctLoop score lookup doc detected ⟨doc.text, []⟩).map
    (fun a => ⟨a.getCorrectedText, a.annots⟩)

/-- The edit `correct` records for one surviving span. -/
def mkEdit (score : String → Int)
    (lookup : String → Nat → Bool → List String) (doc : Doc)
    (s : SpanData) : Annot :=
  ⟨s.startChar, s.endChar, s.text doc,
   top_candidate score lookup (get_masked_text doc s 5) (s.text doc)⟩

/-- The full edit list `correct` records: one edit per detected span that
passes `_valid_edit`. -/
def expectedEdits (score : String → Int)
    (lookup : String → Nat → Bool → List String) (doc : Doc)
    (detected : List (Option SpanData)) : List Annot :=
  (detected.filterMap id).filterMap
    (fun s => if valid_edit doc s = some true
              then some (mkEdit score lookup doc s) else none)

/-- Alignment facts true of every span actually returned by
`Doc.char_span`: token bounds are ordered and inside the document, and a
span with no tokens has no text. -/
def SpanData.WF (doc : Doc) (s : SpanData) : Prop :=
  s.start ≤ s.stop ∧ s.stop ≤ doc.tokens.length ∧
    (s.start = s.stop → s.startChar = s.endChar)

/-- Concrete document for C10: the second token of the context is the
literal text of the placeholder. -/
def docMaskClash : Doc :=
  ⟨"a <mask> err b", [⟨"a", ""⟩, ⟨"<mask>", ""⟩, ⟨"err", ""⟩, ⟨"b", ""⟩]⟩

/-- Concrete error span for C10: the token "err". -/
def spanMaskClash : SpanData := ⟨2, 3, 9, 12⟩

/-- The entity type `_valid_edit` inspects: `doc[span.start:span.end][0].ent_type_`
(the first token of the span's token slice). -/
def span_first_type (doc : Doc) (s : SpanData) : String :=
  (((doc.tokens.take s.stop).drop s.start).headD ⟨"", ""⟩).entType

/-- The suppressed entity types: person (any `PER`-prefixed tag),
geopolitical entity, organization. -/
def suppressed_type (ty : String) : Bool :=
  startsWithStr ty "PER" || ty == "GPE" || ty == "ORG"

/-- Direct rendering of the spec sentence for the left context: the last
at-most-5 of the tokens preceding the span. -/
def spec_left_context (toks : List String) (start : Nat) : List String :=
  (toks.take start).drop ((toks.take start).length - 5)

/-- Direct rendering of the spec sentence for the right context: the first
at-most-5 of the tokens following the span. -/
def spec_right_context (toks : List String) (stop : Nat) : List String :=
  (toks.drop stop).take 5

/-- Model of `line.startswith("S ")` in the evaluation script. -/
def starts_with_s (l : String) : Bool := startsWithStr l "S "

/-- Model of `line[2:]` in the evaluation script. -/
def strip2 (l : String) : String := ⟨l.data.drop 2⟩

/-- Embedding of the source-extraction loop of `scripts/evaluate.py`: for
each line of the .m2 file in order, write `line[2:]` when the line starts
with "S ". -/
def write_source_loop : List String → List String
  | [] => []
  | l :: rest =>
    if starts_with_s l then strip2 l :: write_source_loop rest
    else write_source_loop rest

/-- Embedding of the subprocess calls of `scripts/evaluate.py`, as the
argv lists handed to `subprocess.run`, in order: the script aligns with
`errant_parallel` and scores with two `errant_compare` runs, computing no
scores itself. -/
def evaluate_cmds (sourcePath correctedPath m2Path m2TargetPath : String) :
    List (List String) :=
  [["errant_parallel", "-orig", sourcePath, "-cor", correctedPath,
    "-out", m2TargetPath],
   ["errant_compare", "-hyp", m2TargetPath, "-ref", m2Path],
   ["errant_compare", "-hyp", m2TargetPath, "-ref", m2Path, "-ds", "-cat", "3"]]

/-- Concrete document used by the witnesses: text "ab cd", two tokens,
no named entities. -/
def wDoc : Doc := ⟨"ab cd", [⟨"ab", ""⟩, ⟨"cd", ""⟩]⟩

/-- Concrete span over the token "cd" of `wDoc`. -/
def wSpan : SpanData := ⟨1, 2, 3, 5⟩

/-- Concrete dictionary: the token "cd" has the single suggestion "ce". -/
def wLookup : String → Nat → Bool → List String :=
  fun t _ _ => if t = "cd" then ["ce"] else []

/-- Concrete language model preferring the candidate "ce" in context. -/
def wScore : String → Int :=
  fun t => if t = "ab ce " then 1 else 0

/-- Concrete language model scoring every text equally. -/
def wScore0 : String → Int := fun _ => 0

/-- The correction `speliuk_correct` computes on the witness input with
`wScore`. -/
def wCorrEx : Correction := ⟨"ab ce", [⟨3, 5, "cd", "ce"⟩]⟩

/-- The correction `speliuk_correct` computes on the witness input with
the constant `wScore0`: an identity edit. -/
def wCorrId : Correction := ⟨"ab cd", [⟨3, 5, "cd", "cd"⟩]⟩

theorem mem_insertDesc {α : Type} (key : α → Int) (a x : α) :
    ∀ l : List α, x ∈ insertDesc key a l ↔ x = a ∨ x ∈ l
  | [] => by simp [insertDesc]
  | b :: l => by
    simp only [insertDesc]
    split
    · simp
    · simp only [List.mem_cons, mem_insertDesc key a x l]
      tauto

theorem insertDesc_perm {α : Type} (key : α → Int) (a : α) :
    ∀ l : List α, List.Perm (insertDesc key a l) (a :: l)
  | [] => by simp [insertDesc]
  | b :: l => by
    simp only [insertDesc]
    split
    · exact List.Perm.refl _
    · exact ((insertDesc_perm key a l).cons b).trans (List.Perm.swap a b l)

theorem sortDesc_perm {α : Type} (key : α → Int) :
    ∀ l : List α, List.Perm (sortDesc key l) l
  | [] => by simp [sortDesc]
  | a :: l => by
    simpa [sortDesc] using
      (insertDesc_perm key a (sortDesc key l)).trans ((sortDesc_perm key l).cons a)

theorem mem_sortDesc {α : Type} (key : α → Int) (l : List α) (x : α) :
    x ∈ sortDesc key l ↔ x ∈ l :=
  (sortDesc_perm key l).mem_iff

theorem pairwise_insertDesc {α : Type} (key : α → Int) (a : α) :
    ∀ l : List α, l.Pairwise (fun x y => key y ≤ key x) →
      (insertDesc key a l).Pairwise (fun x y => key y ≤ key x)
  | [], _ => by simp [insertDesc]
  | b :: l, h => by
    rw [List.pairwise_cons] at h
    simp only [insertDesc]
    split
    · rename_i hba
      refine List.Pairwise.cons ?_ (List.Pairwise.cons h.1 h.2)
      intro y hy
      rcases List.mem_cons.1 hy with rfl | hyl
      · exact hba
      · exact le_trans (h.1 y hyl) hba
    · rename_i hba
      refine List.Pairwise.cons ?_ (pairwise_insertDesc key a l h.2)
      intro y hy
      rcases (mem_insertDesc key a y l).1 hy with rfl | hyl
      · exact le_of_not_le (fun hc => hba hc)
      · exact h.1 y hyl

theorem sortDesc_sorted {α : Type} (key : α → Int) :
    ∀ l : List α, (sortDesc key l).Pairwise (fun x y => key y ≤ key x)
  | [] => by simp [sortDesc]
  | a :: l => pairwise_insertDesc key a _ (sortDesc_sorted key l)

theorem sortDesc_headD_max {α : Type} (key : α → Int) (l : List α) (d : α)
    (x : α) (hx : x ∈ l) : key x ≤ key ((sortDesc key l).headD d) := by
  have hmem : x ∈ sortDesc key l := (mem_sortDesc key l x).2 hx
  cases hs : sortDesc key l with
  | nil => rw [hs] at hmem; cases hmem
  | cons p t =>
    rw [hs] at hmem
    have hsorted := sortDesc_sorted key l
    rw [hs, List.pairwise_cons] at hsorted
    rcases List.mem_cons.1 hmem with rfl | hxt
    · simp
    · simpa using hsorted.1 x hxt

theorem mem_dedupFirstAux (x : String) :
    ∀ (l seen : List String), x ∈ dedupFirstAux seen l ↔ x ∈ l ∧ x ∉ seen
  | [], seen => by simp [dedupFirstAux]
  | a :: l, seen => by
    by_cases ha : a ∈ seen
    · rw [dedupFirstAux, if_pos ha, mem_dedupFirstAux x l seen]
      constructor
      · rintro ⟨h1, h2⟩
        exact ⟨List.mem_cons_of_mem a h1, h2⟩
      · rintro ⟨h1, h2⟩
        rcases List.mem_cons.1 h1 with rfl | h
        · exact absurd ha h2
        · exact ⟨h, h2⟩
    · rw [dedupFirstAux, if_neg ha, List.mem_cons, mem_dedupFirstAux x l (a :: seen)]
      constructor
      · rintro (rfl | ⟨h1, h2⟩)
        · exact ⟨List.mem_cons_self _ l, ha⟩
        · exact ⟨List.mem_cons_of_mem a h1, fun hx => h2 (List.mem_cons_of_mem a hx)⟩
      · rintro ⟨h1, h2⟩
        by_cases hxa : x = a
        · exact Or.inl hxa
        · rcases List.mem_cons.1 h1 with rfl | h
          · exact absurd rfl hxa
          · refine Or.inr ⟨h, fun hx => ?_⟩
            rcases List.mem_cons.1 hx with rfl | h3
            · exact hxa rfl
            · exact h2 h3

theorem mem_dedupFirst (x : String) (l : List String) :
    x ∈ dedupFirst l ↔ x ∈ l := by
  rw [dedupFirst, mem_dedupFirstAux]
  simp

theorem kenlm_rerank_pair (score : String → Int) (m : String)
    (cands : List String) (p : String × Int)
    (hp : p ∈ kenlm_rerank score m cands) :
    p.2 = score (scored_text m p.1) ∧ p.1 ∈ cands := by
  rw [kenlm_rerank, mem_sortDesc, List.mem_map] at hp
  obtain ⟨c, hc, rfl⟩ := hp
  exact ⟨rfl, (mem_dedupFirst c cands).1 hc⟩

theorem kenlm_rerank_mem_key (score : String → Int) (m : String)
    (cands : List String) (c : String) (hc : c ∈ cands) :
    (c, score (scored_text m c)) ∈ kenlm_rerank score m cands := by
  rw [kenlm_rerank, mem_sortDesc, List.mem_map]
  exact ⟨c, (mem_dedupFirst c cands).2 hc, rfl⟩

theorem assocScore_rerank (score : String → Int) (m : String)
    (cands : List String) (c : String) (hc : c ∈ cands) :
    assocScore (kenlm_rerank score m cands) c = score (scored_text m c) := by
  have hsome : ((kenlm_rerank score m cands).find? (fun p => p.1 == c)).isSome := by
    rw [List.find?_isSome]
    exact ⟨(c, score (scored_text m c)), kenlm_rerank_mem_key score m cands c hc, by simp⟩
  obtain ⟨a, ha⟩ := Option.isSome_iff_exists.1 hsome
  have hpa : a.1 = c := by simpa using List.find?_some ha
  have hmem := List.mem_of_find?_eq_some ha
  have := (kenlm_rerank_pair score m cands a hmem).1
  rw [assocScore, ha]
  simp [this, hpa]

theorem mem_scoredCandidates (lookup : String → Nat → Bool → List String)
    (token : String) : token ∈ scoredCandidates lookup token := by
  rw [scoredCandidates]
  split
  · assumption
  · simp

theorem kenlm_rerank_ne_nil (score : String → Int) (m : String)
    (cands : List String) (hc : cands ≠ []) :
    kenlm_rerank score m cands ≠ [] := by
  intro h
  rcases cands with _ | ⟨c, rest⟩
  · exact hc rfl
  · have := kenlm_rerank_mem_key score m (c :: rest) c (List.mem_cons_self c rest)
    rw [h] at this
    cases this

theorem kenlm_rerank_headD_max (score : String → Int) (m : String)
    (cands : List String) (d : String × Int) (c : String) (hc : c ∈ cands) :
    score (scored_text m c) ≤ ((kenlm_rerank score m cands).headD d).2 := by
  have hmem : (c, score (scored_text m c)) ∈
      (dedupFirst cands).map (fun c => (c, score (scored_text m c))) :=
    List.mem_map.2 ⟨c, (mem_dedupFirst c cands).2 hc, rfl⟩
  simpa [kenlm_rerank] using
    sortDesc_headD_max (fun p : String × Int => p.2) _ d _ hmem

/-- Claim C1: `top_candidate` returns a scored candidate of maximal language-model
score, and whenever the original token's score ties the maximum (in
particular when it ties the top candidate), the original token is returned. -/
theorem C1_top_candidate_max (score : String → Int)
    (lookup : String → Nat → Bool → List String) (m token : String) :
    top_candidate score lookup m token ∈ scoredCandidates lookup token ∧
    (∀ c ∈ scoredCandidates lookup token,
      score (scored_text m c) ≤
        score (scored_text m (top_candidate score lookup m token))) ∧
    ((∀ c ∈ scoredCandidates lookup token,
        score (scored_text m c) ≤ score (scored_text m token)) →
      top_candidate score lookup m token = token) := by
  have htok := mem_scoredCandidates lookup token
  have hcne : scoredCandidates lookup token ≠ [] := List.ne_nil_of_mem htok
  have hne := kenlm_rerank_ne_nil score m (scoredCandidates lookup token) hcne
  obtain ⟨p, t, hpt⟩ := List.exists_cons_of_ne_nil hne
  have hpmem : p ∈ kenlm_rerank score m (scoredCandidates lookup token) := by
    rw [hpt]; exact List.mem_cons_self p t
  obtain ⟨hp2, hp1⟩ := kenlm_rerank_pair score m _ p hpmem
  have hmax : ∀ c ∈ scoredCandidates lookup token,
      score (scored_text m c) ≤ score (scored_text m p.1) := by
    intro c hc
    have := kenlm_rerank_headD_max score m (scoredCandidates lookup token) (token, 0) c hc
    rw [hpt] at this
    simpa [← hp2] using this
  have h1 : assocScore (kenlm_rerank score m (scoredCandidates lookup token)) token
      = score (scored_text m token) := assocScore_rerank score m _ token htok
  have h2 : assocScore (kenlm_rerank score m (scoredCandidates lookup token)) p.1
      = score (scored_text m p.1) := assocScore_rerank score m _ p.1 hp1
  have hrw : top_candidate score lookup m token =
      if score (scored_text m token) = score (scored_text m p.1) then token else p.1 := by
    simp only [top_candidate]
    rw [hpt]
    simp only [List.headD_cons]
    rw [← hpt, h1, h2]
  by_cases hif : score (scored_text m token) = score (scored_text m p.1)
  · rw [hrw, if_pos hif]
    refine ⟨htok, ?_, fun _ => rfl⟩
    intro c hc
    rw [hif]
    exact hmax c hc
  · rw [hrw, if_neg hif]
    refine ⟨hp1, hmax, ?_⟩
    intro hall
    exact absurd (le_antisymm (hmax token htok) (hall p.1 hp1)) hif

/-- Claim C5: the candidates scored by `top_candidate` are the at most 5
suggestions of the dictionary lookup at maximum edit distance 2 with
casing transfer, plus the original token, which is always present and is
appended exactly when it is not already among those suggestions. -/
theorem C5_scored_candidates (lookup : String → Nat → Bool → List String)
    (token : String) :
    token ∈ scoredCandidates lookup token ∧
    symspell_candidates lookup token = (lookup token 2 true).take 5 ∧
    (symspell_candidates lookup token).length ≤ 5 ∧
    (∀ c ∈ scoredCandidates lookup token,
      c ∈ symspell_candidates lookup token ∨ c = token) ∧
    (token ∉ symspell_candidates lookup token →
      scoredCandidates lookup token = symspell_candidates lookup token ++ [token]) ∧
    (token ∈ symspell_candidates lookup token →
      scoredCandidates lookup token = symspell_candidates lookup token) := by
  refine ⟨mem_scoredCandidates lookup token, rfl, ?_, ?_, ?_, ?_⟩
  · rw [symspell_candidates]
    exact List.length_take_le 5 (lookup token 2 true)
  · intro c hc
    rw [scoredCandidates] at hc
    split at hc
    · exact Or.inl hc
    · rcases List.mem_append.1 hc with h | h
      · exact Or.inl h
      · exact Or.inr (List.mem_singleton.1 h)
  · intro h
    rw [scoredCandidates, if_neg h]
  · intro h
    rw [scoredCandidates, if_pos h]

/-- Claim C6: `_kenlm_rerank` assigns every candidate the score of the
lower-cased text obtained by substituting it for the placeholder in the
masked text, and returns the candidates in descending score order. -/
theorem C6_kenlm_rerank_spec (score : String → Int) (m : String)
    (cands : List String) :
    (∀ p ∈ kenlm_rerank score m cands,
      p.2 = score (lowerStr (pyReplace m MASK_TOKEN p.1)) ∧ p.1 ∈ cands) ∧
    (∀ c ∈ cands, ∃ p ∈ kenlm_rerank score m cands, p.1 = c) ∧
    (kenlm_rerank score m cands).Pairwise (fun p q => q.2 ≤ p.2) := by
  refine ⟨fun p hp => kenlm_rerank_pair score m cands p hp, ?_, ?_⟩
  · intro c hc
    exact ⟨(c, score (scored_text m c)), kenlm_rerank_mem_key score m cands c hc, rfl⟩
  · exact sortDesc_sorted (fun p : String × Int => p.2) _

/-- Claim C10: scoring replaces every occurrence of "<mask>", so a context token
that is itself the literal "<mask>" also gets substituted: with context
tokens "a", "<mask>" and "b" around the masked span, candidate "o" is
scored on "a o o b". -/
theorem C10_mask_collision :
    get_masked_text docMaskClash spanMaskClash 5 = "a <mask> <mask> b" ∧
    scored_text "a <mask> <mask> b" "o" = "a o o b" ∧
    ∀ score : String → Int,
      kenlm_rerank score "a <mask> <mask> b" ["o"] = [("o", score "a o o b")] := by
  have hs : scored_text "a <mask> <mask> b" "o" = "a o o b" := by decide
  refine ⟨by decide, hs, ?_⟩
  intro score
  simp [kenlm_rerank, dedupFirst, dedupFirstAux, sortDesc, insertDesc, hs]

/-- Claim C3: on a span with at least one token, `_valid_edit` rejects exactly
when the span text starts with a digit or the span's entity type is a
person, organization or geopolitical entity, and accepts every other span. -/
theorem C3_valid_edit_iff (doc : Doc) (s : SpanData)
    (h1 : s.start < s.stop) (h2 : s.stop ≤ doc.tokens.length) :
    (valid_edit doc s = some false ↔
      (starts_with_digit (s.text doc) = true ∨
        suppressed_type (span_first_type doc s) = true)) ∧
    (valid_edit doc s = some true ↔
      (starts_with_digit (s.text doc) = false ∧
        suppressed_type (span_first_type doc s) = false)) := by
  have hlen : 0 < ((doc.tokens.take s.stop).drop s.start).length := by
    rw [List.length_drop, List.length_take]
    omega
  obtain ⟨tok, rest, hsl⟩ := List.exists_cons_of_ne_nil (List.length_pos.mp hlen)
  have hty : span_first_type doc s = tok.entType := by
    rw [span_first_type, hsl]
    rfl
  by_cases hd : starts_with_digit (s.text doc) = true
  · rw [valid_edit, if_pos hd]
    constructor
    · exact ⟨fun _ => Or.inl hd, fun _ => rfl⟩
    · constructor
      · intro h
        cases h
      · rintro ⟨hfalse, -⟩
        rw [hd] at hfalse
        cases hfalse
  · rw [valid_edit, if_neg hd, hsl]
    rw [Bool.not_eq_true] at hd
    have hsupp : (startsWithStr tok.entType "PER" || tok.entType == "GPE"
        || tok.entType == "ORG") = suppressed_type (span_first_type doc s) := by
      rw [hty, suppressed_type]
    simp only [hsupp]
    cases hcase : suppressed_type (span_first_type doc s) <;>
      simp [hd, hcase]

/-- Claim C4: the masked text is the left context of exactly `min(span.start, 5)`
tokens preceding the span, then the placeholder, then the right context of
exactly `min(tokens after the span, 5)` tokens following it. -/
theorem C4_get_masked_text_spec (doc : Doc) (s : SpanData)
    (h0 : s.start ≤ s.stop) (h : s.stop ≤ doc.tokens.length) :
    get_masked_text doc s 5 =
      joinSep " " (spec_left_context (doc.tokens.map Token.text) s.start)
        ++ " " ++ MASK_TOKEN ++ " " ++
      joinSep " " (spec_right_context (doc.tokens.map Token.text) s.stop) ∧
    (spec_left_context (doc.tokens.map Token.text) s.start).length
      = min s.start 5 ∧
    (spec_right_context (doc.tokens.map Token.text) s.stop).length
      = min (doc.tokens.length - s.stop) 5 := by
  have hstart : s.start ≤ doc.tokens.length := le_trans h0 h
  have hlentake : ((doc.tokens.map Token.text).take s.start).length = s.start := by
    rw [List.length_take, List.length_map]
    omega
  refine ⟨?_, ?_, ?_⟩
  · rw [get_masked_text, spec_left_context, spec_right_context]
    have hls : (if 5 ≤ s.start then s.start - 5 else 0) = s.start - 5 := by
      split <;> omega
    rw [hls]
    have hleft : ((doc.tokens.take s.start).drop (s.start - 5)).map Token.text
        = ((doc.tokens.map Token.text).take s.start).drop
            (((doc.tokens.map Token.text).take s.start).length - 5) := by
      rw [hlentake, List.map_drop, List.map_take]
    have hright : ((doc.tokens.take (s.stop + 5)).drop s.stop).map Token.text
        = ((doc.tokens.map Token.text).drop s.stop).take 5 := by
      rw [List.map_drop, List.map_take, List.take_drop]
    rw [hleft, hright]
  · rw [spec_left_context, List.length_drop, hlentake]
    omega
  · rw [spec_right_context, List.length_take, List.length_drop, List.length_map]
    omega

theorem correctLoop_spec (score : String → Int)
    (lookup : String → Nat → Bool → List String) (doc : Doc) :
    ∀ (spans : List (Option SpanData)) (acc res : AnnotatedText),
      acc.text = doc.text →
      correctLoop score lookup doc spans acc = some res →
      res.text = doc.text ∧
      res.annots = acc.annots ++ expectedEdits score lookup doc spans
  | [], acc, res => by
    intro hacc h
    rw [correctLoop] at h
    cases h
    simp [expectedEdits, hacc]
  | none :: rest, acc, res => by
    intro _ h
    rw [correctLoop] at h
    cases h
  | some s :: rest, acc, res => by
    intro hacc h
    rw [correctLoop] at h
    cases hv : valid_edit doc s with
    | none => rw [hv] at h; cases h
    | some b =>
      cases b with
      | false =>
        rw [hv] at h
        have ih := correctLoop_spec score lookup doc rest acc res hacc h
        refine ⟨ih.1, ?_⟩
        rw [ih.2]
        simp [expectedEdits, hv]
      | true =>
        rw [hv] at h
        have hacc' : (acc.annotate s.startChar s.endChar
            (top_candidate score lookup (get_masked_text doc s 5) (s.text doc))).text
            = doc.text := hacc
        have ih := correctLoop_spec score lookup doc rest _ res hacc' h
        refine ⟨ih.1, ?_⟩
        rw [ih.2]
        simp [AnnotatedText.annotate, expectedEdits, hv, mkEdit, hacc, SpanData.text]

theorem correctLoop_isSome (score : String → Int)
    (lookup : String → Nat → Bool → List String) (doc : Doc) :
    ∀ (spans : List (Option SpanData)) (acc : AnnotatedText),
      (correctLoop score lookup doc spans acc).isSome = true ↔
        ∀ o ∈ spans, ∃ s, o = some s ∧ valid_edit doc s ≠ none
  | [], acc => by
    rw [correctLoop]
    simp
  | none :: rest, acc => by
    rw [correctLoop]
    simp only [Option.isSome_none]
    constructor
    · intro h
      cases h
    · intro h
      obtain ⟨s, hs, -⟩ := h none (List.mem_cons_self _ _)
      cases hs
  | some s :: rest, acc => by
    rw [correctLoop]
    cases hv : valid_edit doc s with
    | none =>
      simp only [Option.isSome_none]
      constructor
      · intro h
        cases h
      · intro h
        obtain ⟨s', hs', hne⟩ := h (some s) (List.mem_cons_self _ _)
        cases hs'
        exact absurd hv hne
    | some b =>
      have step : ∀ acc' : AnnotatedText,
          (correctLoop score lookup doc rest acc').isSome = true ↔
            ∀ o ∈ some s :: rest, ∃ s', o = some s' ∧ valid_edit doc s' ≠ none := by
        intro acc'
        rw [correctLoop_isSome score lookup doc rest acc']
        constructor
        · intro h o ho
          rcases List.mem_cons.1 ho with rfl | ho'
          · exact ⟨s, rfl, by rw [hv]; intro hc; cases hc⟩
          · exact h o ho'
        · intro h o ho
          exact h o (List.mem_cons_of_mem _ ho)
      cases b
      · exact step acc
      · exact step _

theorem valid_edit_none_iff (doc : Doc) (s : SpanData) (hwf : s.WF doc) :
    valid_edit doc s ≠ none ↔ s.start < s.stop := by
  obtain ⟨hle, hstop, hchar⟩ := hwf
  constructor
  · intro hne
    by_contra hlt
    have heq : s.start = s.stop := by omega
    have hcc := hchar heq
    have htext : (s.text doc).data = [] := by
      rw [SpanData.text, strSlice, hcc]
      apply List.eq_nil_of_length_eq_zero
      rw [List.length_drop, List.length_take]
      omega
    have hdig : starts_with_digit (s.text doc) = false := by
      rw [starts_with_digit, htext]
    have hslice : (doc.tokens.take s.stop).drop s.start = [] := by
      apply List.eq_nil_of_length_eq_zero
      rw [List.length_drop, List.length_take]
      omega
    rw [valid_edit, if_neg (by rw [hdig]; intro hc; cases hc), hslice] at hne
    exact hne rfl
  · intro hlt
    have hlen : 0 < ((doc.tokens.take s.stop).drop s.start).length := by
      rw [List.length_drop, List.length_take]
      omega
    obtain ⟨tok, rest, hsl⟩ := List.exists_cons_of_ne_nil (List.length_pos.mp hlen)
    rw [valid_edit]
    split
    · intro hc
      cases hc
    · rw [hsl]
      intro hc
      cases hc

/-- Claim C8: given the alignment invariants of real `char_span` spans, `correct`
completes without error exactly when every detected span aligned (is not
`None`) and contains at least one token. -/
theorem C8_correct_totality (score : String → Int)
    (lookup : String → Nat → Bool → List String) (doc : Doc)
    (spans : List (Option SpanData))
    (hwf : ∀ s : SpanData, some s ∈ spans → s.WF doc) :
    (speliuk_correct score lookup doc spans).isSome = true ↔
      ∀ o ∈ spans, ∃ s, o = some s ∧ s.start < s.stop := by
  rw [speliuk_correct, Option.isSome_map',
    correctLoop_isSome score lookup doc spans ⟨doc.text, []⟩]
  constructor
  · intro h o ho
    obtain ⟨s, rfl, hne⟩ := h o ho
    exact ⟨s, rfl, (valid_edit_none_iff doc s (hwf s ho)).1 hne⟩
  · intro h o ho
    obtain ⟨s, rfl, hlt⟩ := h o ho
    exact ⟨s, rfl, (valid_edit_none_iff doc s (hwf s ho)).2 hlt⟩

/-- Claim C2: when `correct` completes, it returns the corrected text — the input
text with each recorded edit's span replaced by its chosen correction —
together with the recorded edits, one per detected error span that passes
the suppression rules, each carrying the span bounds, the original span
text and the chosen correction. -/
theorem C2_correct_spec (score : String → Int)
    (lookup : String → Nat → Bool → List String) (doc : Doc)
    (spans : List (Option SpanData)) (c : Correction)
    (h : speliuk_correct score lookup doc spans = some c) :
    c.corrected_text = applyAnnots doc.text c.annotations ∧
    c.annotations = expectedEdits score lookup doc spans := by
  rw [speliuk_correct, Option.map_eq_some'] at h
  obtain ⟨a, ha, rfl⟩ := h
  obtain ⟨htext, hannots⟩ :=
    correctLoop_spec score lookup doc spans ⟨doc.text, []⟩ a rfl ha
  simp only [List.nil_append] at hannots
  exact ⟨by rw [AnnotatedText.getCorrectedText, htext], hannots⟩

/-- Claim C9: every detected span that passes the suppression rules contributes
its edit to the returned annotations, with no condition on the chosen
correction — in particular an identity edit (chosen correction equal to
the original span text) is recorded all the same. -/
theorem C9_identity_edits_recorded (score : String → Int)
    (lookup : String → Nat → Bool → List String) (doc : Doc)
    (spans : List (Option SpanData)) (c : Correction)
    (h : speliuk_correct score lookup doc spans = some c)
    (s : SpanData) (hs : some s ∈ spans)
    (hv : valid_edit doc s = some true) :
    mkEdit score lookup doc s ∈ c.annotations := by
  rw [speliuk_correct, Option.map_eq_some'] at h
  obtain ⟨a, ha, rfl⟩ := h
  obtain ⟨-, hannots⟩ :=
    correctLoop_spec score lookup doc spans ⟨doc.text, []⟩ a rfl ha
  simp only [List.nil_append] at hannots
  show mkEdit score lookup doc s ∈ a.annots
  rw [hannots, expectedEdits]
  apply List.mem_filterMap.2
  refine ⟨s, ?_, by rw [if_pos hv]⟩
  exact List.mem_filterMap.2 ⟨some s, hs, rfl⟩

theorem write_source_loop_eq :
    ∀ lines : List String,
      write_source_loop lines = (lines.filter starts_with_s).map strip2
  | [] => rfl
  | l :: rest => by
    rw [write_source_loop, List.filter_cons]
    by_cases hl : starts_with_s l = true
    · rw [if_pos hl, if_pos hl, List.map_cons, write_source_loop_eq rest]
    · rw [if_neg hl, if_neg hl, write_source_loop_eq rest]

/-- Claim C7: the extracted source is, in order, every .m2 line that begins with
"S " with that 2-character prefix removed, and the external scorer is
invoked through exactly the three listed commands. -/
theorem C7_evaluate_spec (lines : List String) (src cor m2 tgt : String) :
    write_source_loop lines = (lines.filter starts_with_s).map strip2 ∧
    (∀ l ∈ lines, starts_with_s l = true → "S " ++ strip2 l = l) ∧
    evaluate_cmds src cor m2 tgt =
      [["errant_parallel", "-orig", src, "-cor", cor, "-out", tgt],
       ["errant_compare", "-hyp", tgt, "-ref", m2],
       ["errant_compare", "-hyp", tgt, "-ref", m2, "-ds", "-cat", "3"]] := by
  refine ⟨write_source_loop_eq lines, ?_, rfl⟩
  intro l _ hpre
  rw [starts_with_s, startsWithStr] at hpre
  obtain ⟨t, ht⟩ := List.isPrefixOf_iff_prefix.1 hpre
  apply String.ext
  rw [String.data_append, strip2, ← ht, List.drop_left' (by rfl)]

theorem C2_witness :
    speliuk_correct wScore wLookup wDoc [some wSpan] = some wCorrEx ∧
    (wCorrEx.corrected_text = applyAnnots wDoc.text wCorrEx.annotations ∧
     wCorrEx.annotations = expectedEdits wScore wLookup wDoc [some wSpan]) :=
  ⟨by decide,
   C2_correct_spec wScore wLookup wDoc [some wSpan] wCorrEx (by decide)⟩

theorem C3_witness : valid_edit wDoc wSpan = some true :=
  ((C3_valid_edit_iff wDoc wSpan (by decide) (by decide)).2).2 (by decide)

theorem C4_witness :
    get_masked_text wDoc wSpan 5 =
      joinSep " " (spec_left_context (wDoc.tokens.map Token.text) wSpan.start)
        ++ " " ++ MASK_TOKEN ++ " " ++
      joinSep " " (spec_right_context (wDoc.tokens.map Token.text) wSpan.stop) ∧
    (spec_left_context (wDoc.tokens.map Token.text) wSpan.start).length
      = min wSpan.start 5 ∧
    (spec_right_context (wDoc.tokens.map Token.text) wSpan.stop).length
      = min (wDoc.tokens.length - wSpan.stop) 5 :=
  C4_get_masked_text_spec wDoc wSpan (by decide) (by decide)

theorem C8_witness :
    (speliuk_correct wScore wLookup wDoc [some wSpan]).isSome = true ↔
      ∀ o ∈ [some wSpan], ∃ s : SpanData, o = some s ∧ s.start < s.stop := by
  apply C8_correct_totality wScore wLookup wDoc [some wSpan]
  intro s hs
  rw [List.mem_singleton, Option.some_inj] at hs
  subst hs
  constructor
  · decide
  · constructor
    · decide
    · intro h
      cases h

theorem C9_witness :
    (mkEdit wScore0 wLookup wDoc wSpan).topSuggestion
        = (mkEdit wScore0 wLookup wDoc wSpan).sourceText ∧
    mkEdit wScore0 wLookup wDoc wSpan ∈ wCorrId.annotations :=
  ⟨by decide,
   C9_identity_edits_recorded wScore0 wLookup wDoc [some wSpan] wCorrId
     (by decide) wSpan (by decide) (by decide)⟩
